import Mathlib

/-
Verification development for the argumentation-based judgment core of the
ethical-smart-grid repository (smartgrid/rewards/argumentation/lib).

Shallow embedding conventions:
- Python floats are modelled by the rationals.  Every numeric literal used by
  the code and by the concrete scenarios (0.25, 0.5, 0.75, 0.33, 1/3, ...)
  is either exactly representable in binary64 or only compared against such
  values, so the outcomes of every comparison and equality in the claims
  coincide between binary64 and rational arithmetic.
- A situation (an arbitrary Python object, in practice a dict of numbers)
  is modelled as a total function from string keys to rationals.
- Python dicts are insertion ordered; the map of arguments A is modelled as
  a list of arguments in insertion order (add_argument replaces in place on
  a duplicate name, otherwise appends, exactly like dict assignment).
- The defaultdict of sets used for the attackers and attacked indexes is
  modelled as an association list from names to duplicate-free lists of
  names; a read of a missing key yields the empty list.  (The Python
  defaultdict also inserts an empty set on such a read; that insertion is
  unobservable: an empty entry contributes nothing to the derived attack
  list R and never changes any lookup result.)
- Code that raises ArgumentNotFoundError is modelled with Except, or, for
  add_attack_relation, with a pair of the state at raise time and an
  optional error, because the membership checks in the source precede every
  mutation.
-/

/-- A label used by the grounded-extension computation.  The source uses the
strings undecided, in and out; in is a reserved word in Lean so the
constructor is named inn. -/
inductive Label where
  | und : Label
  | inn : Label
  | out : Label
deriving DecidableEq

/-- A situation maps string keys to (rational) values; mirrors the dicts of
numbers used as situations by the tests and the reward functions. -/
def Situation : Type := String → ℚ

/-- Embeds exceptions.ArgumentNotFoundError: carries the requested name. -/
structure ArgumentNotFoundError where
  name : String
deriving DecidableEq

/-- Embeds argument.Argument.  The activation function is a Boolean
predicate over situations, as in the source; alive, support and counter
mirror the fields of the Python class. -/
structure Argument where
  name : String
  content : String
  activation_function : Situation → Bool
  alive : Bool
  support : List String
  counter : List String

/-- Embeds Argument.compute: evaluate the activation function on a state. -/
def Argument.compute (a : Argument) (state : Situation) : Bool :=
  a.activation_function state

/-- Builds an Argument with the constructor defaults of the source:
content empty, activation always true, alive true, no support, no counter. -/
def Argument.default (name : String) : Argument :=
  { name := name
    content := ""
    activation_function := fun _ => true
    alive := true
    support := []
    counter := [] }

/-- Embeds attack.Attack: an ordered pair of argument names. -/
structure Attack where
  attacker : String
  attacked : String
deriving DecidableEq

/-- Lookup in the multimap modelling a Python defaultdict of sets: the value
stored for the key, or the empty list when the key is absent. -/
def lookupMM : List (String × List String) → String → List String
  | [], _ => []
  | p :: rest, k => if p.1 = k then p.2 else lookupMM rest k

/-- Insertion in the multimap, modelling d[k].add(v) on a defaultdict of
sets: add the value to the stored set of the key if it is not already
present, creating the entry at the end when the key is absent (dict
insertion order). -/
def insertMM : List (String × List String) → String → String →
    List (String × List String)
  | [], k, v => [(k, [v])]
  | p :: rest, k, v =>
    if p.1 = k then (p.1, if v ∈ p.2 then p.2 else p.2 ++ [v]) :: rest
    else p :: insertMM rest k v

/-- Embeds afdm.AFDM.  A is the insertion-ordered map of arguments;
attackers and attacked are the two derived indexes; decisions accumulates
the decisions of added arguments; grounded stores the most recently
computed grounded extension. -/
structure AFDM where
  A : List Argument
  attackers : List (String × List String)
  attacked : List (String × List String)
  decisions : List String
  grounded : List String

/-- Embeds AFDM.__init__: the fresh, empty framework. -/
def AFDM.empty : AFDM :=
  { A := [], attackers := [], attacked := [], decisions := [], grounded := [] }

/-- The list of argument names, in insertion order: self.A.keys(). -/
def AFDM.keys (g : AFDM) : List String :=
  g.A.map (fun a => a.name)

/-- Set-union on the decision lists (Python set union, order irrelevant). -/
def listUnion (xs ys : List String) : List String :=
  xs ++ ys.filter (fun y => decide (y ∉ xs))

/-- Embeds AFDM.add_argument.  A duplicate name replaces the previous entry
in place (dict assignment semantics; the source additionally emits a
non-fatal warning); a new name is appended.  The argument is stored by
value, which models the deep copy of the source, and the decisions it
supports or counters are unioned into the known decisions.  The source also
returns the stored copy; callers of the embedding read it from the graph. -/
def AFDM.add_argument (g : AFDM) (argument : Argument) : AFDM :=
  let A' :=
    if argument.name ∈ g.keys then
      g.A.map (fun a => if a.name == argument.name then argument else a)
    else
      g.A ++ [argument]
  { g with
    A := A'
    decisions := listUnion (listUnion g.decisions argument.support) argument.counter }

/-- Embeds AFDM.add_attack_relation on resolved names.  The result pairs the
state of the framework at return or raise time with the raised error, if
any: both membership checks precede both index mutations in the source, so
a raise leaves the framework untouched. -/
def AFDM.add_attack_relation (g : AFDM) (attacker attacked : String) :
    AFDM × Option ArgumentNotFoundError :=
  if attacker ∉ g.keys then (g, some { name := attacker })
  else if attacked ∉ g.keys then (g, some { name := attacked })
  else
    ({ g with
       attackers := insertMM g.attackers attacked attacker
       attacked := insertMM g.attacked attacker attacked }, none)

/-- Resolves the Union[str, Argument] parameters of add_attack_relation:
an Argument is replaced by its name, a string is kept. -/
def resolveName (x : Argument ⊕ String) : String :=
  match x with
  | Sum.inl a => a.name
  | Sum.inr s => s

/-- Embeds add_attack_relation with its Union[str, Argument] signature:
both endpoints are resolved to names first. -/
def AFDM.add_attack_relation_u (g : AFDM) (attacker attacked : Argument ⊕ String) :
    AFDM × Option ArgumentNotFoundError :=
  g.add_attack_relation (resolveName attacker) (resolveName attacked)

/-- Embeds the derived property AFDM.R: all attack relations, read off the
attacked index (for attacker in attacked.keys(): for t in attacked[attacker]). -/
def AFDM.R (g : AFDM) : List Attack :=
  g.attacked.flatMap (fun p => p.2.map (fun t => { attacker := p.1, attacked := t }))

/-- Embeds AFDM.arguments_supporting: the arguments whose support contains
the decision and which are alive, unless aliveness is ignored. -/
def AFDM.arguments_supporting (g : AFDM) (decision : String)
    (ignore_aliveness : Bool) : List Argument :=
  g.A.filter (fun a => decide (decision ∈ a.support) && (ignore_aliveness || a.alive))

/-- Embeds AFDM.arguments_countering: the arguments whose counter contains
the decision and which are alive, unless aliveness is ignored. -/
def AFDM.arguments_countering (g : AFDM) (decision : String)
    (ignore_aliveness : Bool) : List Argument :=
  g.A.filter (fun a => decide (decision ∈ a.counter) && (ignore_aliveness || a.alive))

/-- Embeds AFDM.is_alive: the aliveness of the named argument, or an
ArgumentNotFoundError carrying the requested name when it is unknown. -/
def AFDM.is_alive (g : AFDM) (argument_name : String) :
    Except ArgumentNotFoundError Bool :=
  match g.A.find? (fun a => a.name == argument_name) with
  | none => Except.error { name := argument_name }
  | some a => Except.ok a.alive

/-- Embeds AFDM.get_attackers (with return_arguments false): reads the
attackers index through the defaultdict, so an unknown name yields the
empty list and no error. -/
def AFDM.get_attackers (g : AFDM) (argument : String) : List String :=
  lookupMM g.attackers argument

/-- Embeds AFDM.get_attacked (with return_arguments false): reads the
attacked index through the defaultdict, so an unknown name yields the
empty list and no error. -/
def AFDM.get_attacked (g : AFDM) (argument : String) : List String :=
  lookupMM g.attacked argument

/-- The initial labels of compute_grounded_extension: undecided if the
argument is alive, out otherwise, for every key of A.  The source builds
this dict by calling is_alive on each key of A, which cannot raise there.
Names outside A have no entry in the Python dict; the total function
defaults them to out. -/
def AFDM.initLabels (g : AFDM) : String → Label := fun n =>
  match g.A.find? (fun a => a.name == n) with
  | some a => if a.alive then Label.und else Label.out
  | none => Label.out

/-- The candidate condition of AFDM._grounded_loop_condition: an argument
labelled undecided all of whose attackers are labelled out. -/
def AFDM.isCandidate (g : AFDM) (labels : String → Label) (c : String) : Prop :=
  labels c = Label.und ∧ ∀ a ∈ g.get_attackers c, labels a = Label.out

instance (g : AFDM) (labels : String → Label) (c : String) :
    Decidable (g.isCandidate labels c) := by
  unfold AFDM.isCandidate
  exact instDecidableAnd

/-- Embeds AFDM._grounded_loop_condition: the first candidate in key order
(the iteration order of the labels dict is the insertion order of A), or
none when no candidate remains. -/
def AFDM.findCandidate (g : AFDM) (labels : String → Label) : Option String :=
  g.keys.find? (fun c => decide (g.isCandidate labels c))

/-- One iteration of the loop body of compute_grounded_extension: label the
candidate in, then label everything it attacks out.  The out labelling is
applied after the in labelling, as in the source, so a name both equal to
the candidate and attacked by it would end out. -/
def AFDM.applyStep (g : AFDM) (labels : String → Label) (x : String) :
    String → Label := fun y =>
  if y ∈ g.get_attacked x then Label.out
  else if y = x then Label.inn
  else labels y

/-- The fuelled loop of compute_grounded_extension: repeatedly pick the next
candidate and apply the step, stopping when no candidate remains or the
fuel runs out.  Fuel equal to the number of arguments suffices, which is
proved below (each step consumes one undecided label). -/
def AFDM.groundedLoop (g : AFDM) : Nat → (String → Label) → (String → Label)
  | 0, labels => labels
  | n + 1, labels =>
    match g.findCandidate labels with
    | none => labels
    | some x => g.groundedLoop n (g.applyStep labels x)

/-- Embeds AFDM.compute_grounded_extension: run the labelling loop to
completion from the initial labels and collect, in key order, the arguments
labelled in.  (The source may also add out-labelled entries for attacked
names outside A to its labels dict; such entries are never collected and
are never candidates, so the result is unchanged.) -/
def AFDM.compute_grounded_extension (g : AFDM) : List String :=
  let final := g.groundedLoop g.keys.length g.initLabels
  g.keys.filter (fun k => decide (final k = Label.inn))

/-- Embeds AFDM.update_alive_in_grounded_extension: store the grounded
extension and set the aliveness of every argument to its membership in it. -/
def AFDM.update_alive_in_grounded_extension (g : AFDM) : AFDM :=
  let gr := g.compute_grounded_extension
  { g with
    grounded := gr
    A := g.A.map (fun a => { a with alive := decide (a.name ∈ gr) }) }

/-- Embeds judgment.j_simple: the ratio of alive pros over alive pros plus
alive cons, or one half when both counts are zero. -/
def j_simple (afdm : AFDM) (decision : String) : ℚ :=
  let pros := (afdm.arguments_supporting decision false).length
  let cons := (afdm.arguments_countering decision false).length
  if pros + cons = 0 then 1 / 2
  else (pros : ℚ) / ((pros : ℚ) + (cons : ℚ))

/-- Embeds judgment.j_diff: alive pros over total pros minus alive cons over
total cons, each ratio read as zero when its denominator is zero. -/
def j_diff (afdm : AFDM) (decision : String) : ℚ :=
  let alive_pros := (afdm.arguments_supporting decision false).length
  let total_pros := (afdm.arguments_supporting decision true).length
  let alive_cons := (afdm.arguments_countering decision false).length
  let total_cons := (afdm.arguments_countering decision true).length
  let pros : ℚ := if total_pros ≠ 0 then (alive_pros : ℚ) / (total_pros : ℚ) else 0
  let cons : ℚ := if total_cons ≠ 0 then (alive_cons : ℚ) / (total_cons : ℚ) else 0
  pros - cons

/-- Embeds judgment.j_ratio.  The source keeps the running maximum
best_acceptable_count as an attribute on the module-level function object,
a single process-wide mutable cell initialised to zero at the first call;
the embedding threads that cell explicitly: the input best is the value of
the cell before the call and the returned second component its value after
the call. -/
def j_ratio (afdm : AFDM) (decision : String) (best : ℕ) : ℚ × ℕ :=
  let pros := (afdm.arguments_supporting decision false).length
  let cons := (afdm.arguments_countering decision false).length
  let top : ℤ := (pros : ℤ) ^ 2 - (cons : ℤ) ^ 2
  let down := pros + cons
  let best' := max down best
  (if best' = 0 then 1 / 2 else (top : ℚ) / (best' : ℚ), best')

/-- Embeds judgment.j_grad: one half when there are no possible pros or no
possible cons, otherwise one half plus a step of one half over total pros
per alive pro, minus a step of one half over total cons per alive con. -/
def j_grad (afdm : AFDM) (decision : String) : ℚ :=
  let total_pros := (afdm.arguments_supporting decision true).length
  let total_cons := (afdm.arguments_countering decision true).length
  if total_pros = 0 ∨ total_cons = 0 then 1 / 2
  else
    let up_step : ℚ := (1 / 2) / (total_pros : ℚ)
    let down_step : ℚ := (1 / 2) / (total_cons : ℚ)
    let pros := (afdm.arguments_supporting decision false).length
    let cons := (afdm.arguments_countering decision false).length
    1 / 2 + up_step * (pros : ℚ) - down_step * (cons : ℚ)

/-- Embeds judgment.j_offset: the ratio of one plus alive pros over one plus
alive cons, clamped at one. -/
def j_offset (afdm : AFDM) (decision : String) : ℚ :=
  let pros := (afdm.arguments_supporting decision false).length
  let cons := (afdm.arguments_countering decision false).length
  min 1 ((1 + (pros : ℚ)) / (1 + (cons : ℚ)))

/-- Embeds judging_agent.JudgingAgent restricted to the fields the judgment
path reads: the moral value name and the owned template framework (the deep
copy taken at construction is value semantics here).  The activation-rate
and last-activation statistics of the source are write-only bookkeeping on
the judgment path: they never influence the specialized graph, the grounded
extension or the returned reward, and no claim mentions them, so they are
not carried. -/
structure JudgingAgent where
  moral_value : String
  base_afdm : AFDM

/-- Embeds JudgingAgent.__init__: the moral value is lower-cased and the
template framework is copied by value. -/
def JudgingAgent.create (moral_value : String) (base_afdm : AFDM) : JudgingAgent :=
  { moral_value := moral_value.toLower, base_afdm := base_afdm }

/-- Embeds JudgingAgent._filter_afdm: copy every template argument into a
fresh framework with its aliveness recomputed on the situation (the source
adds the copy then sets alive on the returned stored copy, which is the
same resulting graph), then copy every template attack both of whose
endpoints are alive in the new framework.  The is_alive calls of the source
cannot raise there, because every template argument was just copied in, so
the embedding takes the ok branch of both calls. -/
def JudgingAgent.filter_afdm (ja : JudgingAgent) (situation : Situation) : AFDM :=
  let g1 := ja.base_afdm.A.foldl
    (fun g argument =>
      g.add_argument { argument with alive := argument.compute situation })
    AFDM.empty
  ja.base_afdm.R.foldl
    (fun g attack =>
      match g.is_alive attack.attacker, g.is_alive attack.attacked with
      | Except.ok true, Except.ok true =>
        (g.add_attack_relation attack.attacker attack.attacked).1
      | _, _ => g)
    g1

/-- Embeds JudgingAgent.judge for a pure transform: specialize the template
to the situation, narrow aliveness through the grounded extension, and
apply the transform.  (The activation-rate update between those steps does
not touch the specialized graph or the reward.) -/
def JudgingAgent.judge (ja : JudgingAgent) (situation : Situation)
    (decision : String) (j_transform : AFDM → String → ℚ) : ℚ :=
  let current := (ja.filter_afdm situation).update_alive_in_grounded_extension
  j_transform current decision

/-- Embeds JudgingAgent.judge when the transform is j_ratio: the same
pipeline, threading the process-wide running-maximum cell of j_ratio. -/
def JudgingAgent.judge_ratio (ja : JudgingAgent) (situation : Situation)
    (decision : String) (best : ℕ) : ℚ × ℕ :=
  let current := (ja.filter_afdm situation).update_alive_in_grounded_extension
  j_ratio current decision best

/-- Runs a sequence of judge calls with j_ratio as they run in one Python
process: the single best_acceptable_count cell is threaded through all
calls in program order, whichever agent performs them.  Returns the list of
rewards in order. -/
def runShared (calls : List (JudgingAgent × Situation × String)) (best : ℕ) :
    List ℚ :=
  match calls with
  | [] => []
  | c :: rest =>
    let r := JudgingAgent.judge_ratio c.1 c.2.1 c.2.2 best
    r.1 :: runShared rest r.2


/-- Scenario A of the test suite (test_simple_grounded): three always-alive
arguments a, b, c with attacks a to b and b to c, built through the public
construction operations. -/
def scenA : AFDM :=
  ((((AFDM.empty.add_argument (Argument.default "a")).add_argument
      (Argument.default "b")).add_argument
      (Argument.default "c")).add_attack_relation "a" "b").1.add_attack_relation "b" "c"
    |>.1

/-- The rational one quarter, written as a normal-form value so that the
kernel can evaluate comparisons on it without normalising; proved equal to
1 / 4 below. -/
def q14 : ℚ := ⟨1, 4, by norm_num, by norm_num⟩

/-- The rational one half, in normal form; proved equal to 1 / 2 below. -/
def q12 : ℚ := ⟨1, 2, by norm_num, by norm_num⟩

/-- The rational three quarters, in normal form; proved equal to 3 / 4
below. -/
def q34 : ℚ := ⟨3, 4, by norm_num, by norm_num⟩

/-- The rational 0.33 of the test situation, in normal form; proved equal
to 33 / 100 below. -/
def q33 : ℚ := ⟨33, 100, by norm_num, by norm_num⟩

/-- An equity-threshold argument of Scenario B (test_complex): alive iff the
equity value of the situation is at least the threshold, supporting the
decision moral. -/
def equityArg (name : String) (content : String) (threshold : ℚ) : Argument :=
  { name := name
    content := content
    activation_function := fun s => decide (threshold ≤ s "equity")
    alive := true
    support := ["moral"]
    counter := [] }

/-- Scenario B of the test suite (test_complex): the six-argument template
graph with the three equity-threshold arguments and the three always-alive
test arguments, and the attack equity_X to test_X for each threshold X. -/
def scenB : AFDM :=
  (((((((((AFDM.empty.add_argument
    (equityArg "equity_0.25" "Equity greater than 25%" q14)).add_argument
    (equityArg "equity_0.50" "Equity greater than 50%" q12)).add_argument
    (equityArg "equity_0.75" "Equity greater than 75%" q34)).add_argument
    { Argument.default "test_0.25" with content := "Attacked by equity_0.25" }).add_argument
    { Argument.default "test_0.50" with content := "Attacked by equity_0.50" }).add_argument
    { Argument.default "test_0.75" with content := "Attacked by equity_0.75"
      }).add_attack_relation "equity_0.25" "test_0.25").1.add_attack_relation
    "equity_0.50" "test_0.50").1.add_attack_relation "equity_0.75" "test_0.75").1

/-- The judging agent of Scenario B, using the template graph scenB. -/
def scenBAgent : JudgingAgent := JudgingAgent.create "equity" scenB

/-- The situation of Scenario B: equity is 0.33, every other key is 0. -/
def sitEquity : Situation := fun k => if k = "equity" then q33 else 0

/-- Scenario B specialized to the situation with equity 0.33, before the
grounded extension is computed. -/
def scenBFiltered : AFDM := scenBAgent.filter_afdm sitEquity

/-- Scenario B after specialization and grounding. -/
def scenBGrounded : AFDM := scenBFiltered.update_alive_in_grounded_extension

/-- The aliveness recorded for a named argument of a framework, or none when
the name is unknown; a convenience projection for the concrete scenarios. -/
def AFDM.aliveOf (g : AFDM) (name : String) : Option Bool :=
  (g.A.find? (fun a => a.name == name)).map Argument.alive

/-- A template graph with three always-alive arguments supporting moral and
nothing countering it; used for the j_ratio examples. -/
def gThreePros : AFDM :=
  ((AFDM.empty.add_argument
    { Argument.default "s1" with support := ["moral"] }).add_argument
    { Argument.default "s2" with support := ["moral"] }).add_argument
    { Argument.default "s3" with support := ["moral"] }

/-- A template graph with one always-alive argument supporting moral. -/
def gOnePro : AFDM :=
  AFDM.empty.add_argument { Argument.default "t1" with support := ["moral"] }

/-- A graph with one alive supporter and one alive counterer of moral; used
for the j_simple counterexample. -/
def gOneOne : AFDM :=
  (AFDM.empty.add_argument
    { Argument.default "p1" with support := ["moral"] }).add_argument
    { Argument.default "c1" with counter := ["moral"] }

/-- The judging agent owning the three-supporter template. -/
def agentThree : JudgingAgent := JudgingAgent.create "big" gThreePros

/-- The judging agent owning the one-supporter template. -/
def agentOne : JudgingAgent := JudgingAgent.create "small" gOnePro

/-- The trivial situation: every key reads 0. -/
def sitZero : Situation := fun _ => 0

/-- The nondeterministic run relation of the grounded labelling loop: any
sequence of steps, each picking some candidate (not necessarily the first
one in key order, as the deterministic implementation does). -/
inductive Steps (g : AFDM) : (String → Label) → (String → Label) → Prop where
  | refl (L : String → Label) : Steps g L L
  | step {L L' : String → Label} {x : String} (hx : x ∈ g.keys)
      (hc : g.isCandidate L x) (h : Steps g (g.applyStep L x) L') : Steps g L L'

/-- A labelling from which the loop cannot make another step. -/
def NoCandidate (g : AFDM) (labels : String → Label) : Prop :=
  ∀ c ∈ g.keys, ¬ g.isCandidate labels c

/-- The run invariant of the labelling loop, relative to the initial
labelling: out labels persist, undecided labels originate from undecided
initial labels, in labels originate from undecided keys, the attackers and
the targets of an in argument are out, and every out label is either
initial or explained by an in attacker. -/
def RunInv (g : AFDM) (L0 L : String → Label) : Prop :=
  (∀ y, L0 y = Label.out → L y = Label.out) ∧
  (∀ y, L y = Label.und → L0 y = Label.und) ∧
  (∀ x, L x = Label.inn → L0 x = Label.und ∧ x ∈ g.keys) ∧
  (∀ x, L x = Label.inn → ∀ a ∈ g.get_attackers x, L a = Label.out) ∧
  (∀ x, L x = Label.inn → ∀ z ∈ g.get_attacked x, L z = Label.out) ∧
  (∀ y, L y = Label.out →
    L0 y = Label.out ∨ ∃ x, L x = Label.inn ∧ y ∈ g.get_attacked x)

/-- The canonical (order-free) grounded labelling, defined inductively: an
argument is out when it starts out or is attacked by an accepted argument,
and accepted (in) when it starts undecided and all of its attackers are
out. -/
inductive GLab (g : AFDM) (L0 : String → Label) : String → Label → Prop where
  | out_init {y : String} : L0 y = Label.out → GLab g L0 y Label.out
  | out_att {x y : String} : GLab g L0 x Label.inn → y ∈ g.get_attacked x →
      GLab g L0 y Label.out
  | acc {x : String} : x ∈ g.keys → L0 x = Label.und →
      (∀ a ∈ g.get_attackers x, GLab g L0 a Label.out) → GLab g L0 x Label.inn

/-- The number of keys currently labelled undecided; the variant of the
labelling loop. -/
def undCount (g : AFDM) (labels : String → Label) : ℕ :=
  g.keys.countP (fun k => decide (labels k = Label.und))

/-- The conflict-freeness invariant of the labelling loop: everything an in
argument attacks is out.  This invariant holds along every run, without
assuming the two indexes consistent, because the loop kills all targets of
a freshly accepted candidate and out labels persist. -/
def ConflictInv (g : AFDM) (L : String → Label) : Prop :=
  ∀ x, L x = Label.inn → ∀ z ∈ g.get_attacked x, L z = Label.out

/-- The two derived indexes are mutually consistent: y attacks x according
to the attackers index exactly when x is attacked by y according to the
attacked index.  This is the central structural invariant of the graph. -/
def Consistent (g : AFDM) : Prop :=
  ∀ x y : String, y ∈ g.get_attackers x ↔ x ∈ g.get_attacked y

/-- The keys of both derived indexes are names of known arguments. -/
def MapsDom (g : AFDM) : Prop :=
  (∀ p ∈ g.attackers, p.1 ∈ g.keys) ∧ (∀ p ∈ g.attacked, p.1 ∈ g.keys)

/-- The frameworks reachable from a fresh graph through any sequence of
add_argument and add_attack_relation calls; a raising add_attack_relation
call contributes the untouched framework, as in the source. -/
inductive Reachable : AFDM → Prop where
  | empty : Reachable AFDM.empty
  | add_arg {g : AFDM} (a : Argument) : Reachable g → Reachable (g.add_argument a)
  | add_att {g : AFDM} (x y : String) : Reachable g →
      Reachable (g.add_attack_relation x y).1

theorem lookupMM_cons_eq (p : String × List String)
    (rest : List (String × List String)) (k : String) (h : p.1 = k) :
    lookupMM (p :: rest) k = p.2 := by
  simp [lookupMM, h]

theorem lookupMM_cons_ne (p : String × List String)
    (rest : List (String × List String)) (k : String) (h : ¬ p.1 = k) :
    lookupMM (p :: rest) k = lookupMM rest k := by
  simp [lookupMM, h]

theorem insertMM_cons_eq (p : String × List String)
    (rest : List (String × List String)) (k v : String) (h : p.1 = k) :
    insertMM (p :: rest) k v =
      (p.1, if v ∈ p.2 then p.2 else p.2 ++ [v]) :: rest := by
  simp [insertMM, h]

theorem insertMM_cons_ne (p : String × List String)
    (rest : List (String × List String)) (k v : String) (h : ¬ p.1 = k) :
    insertMM (p :: rest) k v = p :: insertMM rest k v := by
  simp [insertMM, h]

theorem mem_lookup_insertMM (d : List (String × List String)) (k v x y : String) :
    y ∈ lookupMM (insertMM d k v) x ↔ (x = k ∧ y = v) ∨ y ∈ lookupMM d x := by
  induction d with
  | nil =>
    by_cases hxk : x = k
    · subst hxk
      rw [show insertMM [] x v = [(x, [v])] from rfl,
        lookupMM_cons_eq (x, [v]) [] x rfl]
      simp [lookupMM]
    · rw [show insertMM [] k v = [(k, [v])] from rfl,
        lookupMM_cons_ne (k, [v]) [] x (fun h => hxk h.symm)]
      simp [lookupMM, hxk]
  | cons p rest ih =>
    by_cases hpk : p.1 = k
    · rw [insertMM_cons_eq p rest k v hpk]
      by_cases hxk : x = k
      · subst hxk
        rw [lookupMM_cons_eq (p.1, if v ∈ p.2 then p.2 else p.2 ++ [v]) rest x hpk,
          lookupMM_cons_eq p rest x hpk]
        by_cases hv : v ∈ p.2
        · rw [if_pos hv]
          constructor
          · intro hy
            exact Or.inr hy
          · rintro (⟨_, rfl⟩ | hy)
            · exact hv
            · exact hy
        · rw [if_neg hv]
          rw [List.mem_append, List.mem_singleton]
          constructor
          · rintro (hy | rfl)
            · exact Or.inr hy
            · exact Or.inl ⟨rfl, rfl⟩
          · rintro (⟨_, rfl⟩ | hy)
            · exact Or.inr rfl
            · exact Or.inl hy
      · have hpx : ¬ p.1 = x := by
          rw [hpk]
          intro h
          exact hxk h.symm
        rw [lookupMM_cons_ne (p.1, if v ∈ p.2 then p.2 else p.2 ++ [v]) rest x hpx,
          lookupMM_cons_ne p rest x hpx]
        constructor
        · intro hy
          exact Or.inr hy
        · rintro (⟨h1, _⟩ | hy)
          · exact absurd h1 hxk
          · exact hy
    · rw [insertMM_cons_ne p rest k v hpk]
      by_cases hpx : p.1 = x
      · have hxk : ¬ x = k := by
          intro h
          rw [hpx, h] at hpk
          exact hpk rfl
        rw [lookupMM_cons_eq p _ x hpx, lookupMM_cons_eq p rest x hpx]
        constructor
        · intro hy
          exact Or.inr hy
        · rintro (⟨h1, _⟩ | hy)
          · exact absurd h1 hxk
          · exact hy
      · rw [lookupMM_cons_ne p _ x hpx, lookupMM_cons_ne p rest x hpx]
        exact ih

theorem fst_mem_insertMM (d : List (String × List String)) (k v : String) :
    ∀ p ∈ insertMM d k v, p.1 = k ∨ ∃ q ∈ d, p.1 = q.1 := by
  induction d with
  | nil =>
    intro p hp
    rw [show insertMM [] k v = [(k, [v])] from rfl, List.mem_singleton] at hp
    subst hp
    exact Or.inl rfl
  | cons q rest ih =>
    intro p hp
    by_cases hqk : q.1 = k
    · rw [insertMM_cons_eq q rest k v hqk, List.mem_cons] at hp
      rcases hp with hp | hp
      · refine Or.inl ?_
        rw [hp]
        exact hqk
      · exact Or.inr ⟨p, List.mem_cons_of_mem q hp, rfl⟩
    · rw [insertMM_cons_ne q rest k v hqk, List.mem_cons] at hp
      rcases hp with hp | hp
      · exact Or.inr ⟨q, List.mem_cons_self q rest, by rw [hp]⟩
      · rcases ih p hp with h | ⟨r, hr, hpr⟩
        · exact Or.inl h
        · exact Or.inr ⟨r, List.mem_cons_of_mem q hr, hpr⟩

theorem lookupMM_eq_nil (d : List (String × List String)) (n : String)
    (h : ∀ p ∈ d, ¬ p.1 = n) : lookupMM d n = [] := by
  induction d with
  | nil => rfl
  | cons p rest ih =>
    rw [lookupMM_cons_ne p rest n (h p (List.mem_cons_self p rest))]
    exact ih (fun q hq => h q (List.mem_cons_of_mem p hq))

theorem consistent_empty : Consistent AFDM.empty := by
  intro x y
  constructor
  · intro h
    exact absurd h (List.not_mem_nil y)
  · intro h
    exact absurd h (List.not_mem_nil x)

theorem consistent_add_argument (g : AFDM) (a : Argument) (h : Consistent g) :
    Consistent (g.add_argument a) := h

theorem add_attack_relation_cases (g : AFDM) (x y : String) :
    ((g.add_attack_relation x y).1 = g ∧ (g.add_attack_relation x y).2.isSome = true) ∨
    (x ∈ g.keys ∧ y ∈ g.keys ∧
      (g.add_attack_relation x y).1.A = g.A ∧
      (g.add_attack_relation x y).1.attackers = insertMM g.attackers y x ∧
      (g.add_attack_relation x y).1.attacked = insertMM g.attacked x y ∧
      (g.add_attack_relation x y).2 = none) := by
  unfold AFDM.add_attack_relation
  by_cases hx : x ∈ g.keys
  · by_cases hy : y ∈ g.keys
    · right
      refine ⟨hx, hy, ?_, ?_, ?_, ?_⟩ <;> simp [hx, hy]
    · left
      constructor <;> simp [hx, hy]
  · left
    constructor <;> simp [hx]

theorem consistent_add_attack (g : AFDM) (x y : String) (h : Consistent g) :
    Consistent (g.add_attack_relation x y).1 := by
  rcases add_attack_relation_cases g x y with ⟨heq, _⟩ | ⟨_, _, _, hatt, hatd, _⟩
  · rw [heq]
    exact h
  · intro a b
    unfold AFDM.get_attackers AFDM.get_attacked
    rw [hatt, hatd, mem_lookup_insertMM, mem_lookup_insertMM]
    constructor
    · rintro (⟨rfl, rfl⟩ | hb)
      · exact Or.inl ⟨rfl, rfl⟩
      · exact Or.inr ((h a b).1 hb)
    · rintro (⟨rfl, rfl⟩ | hb)
      · exact Or.inl ⟨rfl, rfl⟩
      · exact Or.inr ((h a b).2 hb)

theorem consistent_of_reachable (g : AFDM) (h : Reachable g) : Consistent g := by
  induction h with
  | empty => exact consistent_empty
  | add_arg a _ ih => exact consistent_add_argument _ a ih
  | add_att x y _ ih => exact consistent_add_attack _ x y ih

theorem keys_add_argument (g : AFDM) (a : Argument) (n : String)
    (hn : n ∈ g.keys) : n ∈ (g.add_argument a).keys := by
  unfold AFDM.add_argument
  by_cases hmem : a.name ∈ g.keys
  · simp only [hmem, if_true]
    show n ∈ (g.A.map (fun b => if b.name == a.name then a else b)).map
      (fun b => b.name)
    rw [List.map_map]
    have hcongr : g.A.map ((fun b : Argument => b.name) ∘
        (fun b : Argument => if b.name == a.name then a else b)) =
        g.A.map (fun b : Argument => b.name) := by
      apply List.map_congr_left
      intro b _
      by_cases hb : b.name == a.name
      · simp only [Function.comp, hb, if_true]
        exact (eq_of_beq hb).symm
      · simp [Function.comp, hb]
    rw [hcongr]
    exact hn
  · simp only [hmem, if_false]
    show n ∈ (g.A ++ [a]).map (fun b => b.name)
    rw [List.map_append, List.mem_append]
    exact Or.inl hn

theorem mapsdom_of_reachable (g : AFDM) (h : Reachable g) : MapsDom g := by
  induction h with
  | empty =>
    constructor
    · intro p hp
      exact absurd hp (List.not_mem_nil p)
    · intro p hp
      exact absurd hp (List.not_mem_nil p)
  | add_arg a _ ih =>
    obtain ⟨h1, h2⟩ := ih
    constructor
    · intro p hp
      exact keys_add_argument _ a _ (h1 p hp)
    · intro p hp
      exact keys_add_argument _ a _ (h2 p hp)
  | @add_att g' x y _ ih =>
    obtain ⟨h1, h2⟩ := ih
    rcases add_attack_relation_cases g' x y with ⟨heq, _⟩ | ⟨hx, hy, hA, hatt, hatd, _⟩
    · rw [heq]
      exact ⟨h1, h2⟩
    · have hkeys : ∀ m, m ∈ g'.keys → m ∈ (g'.add_attack_relation x y).1.keys := by
        intro m hm
        unfold AFDM.keys
        rw [hA]
        exact hm
      constructor
      · intro p hp
        rw [hatt] at hp
        rcases fst_mem_insertMM _ y x p hp with hk | ⟨q, hq, hpq⟩
        · rw [hk]
          exact hkeys y hy
        · rw [hpq]
          exact hkeys q.1 (h1 q hq)
      · intro p hp
        rw [hatd] at hp
        rcases fst_mem_insertMM _ x y p hp with hk | ⟨q, hq, hpq⟩
        · rw [hk]
          exact hkeys x hx
        · rw [hpq]
          exact hkeys q.1 (h2 q hq)

theorem get_attackers_unknown (g : AFDM) (n : String) (hd : MapsDom g)
    (hn : n ∉ g.keys) : g.get_attackers n = [] := by
  apply lookupMM_eq_nil
  intro p hp hpn
  exact hn (hpn ▸ hd.1 p hp)

theorem get_attacked_unknown (g : AFDM) (n : String) (hd : MapsDom g)
    (hn : n ∉ g.keys) : g.get_attacked n = [] := by
  apply lookupMM_eq_nil
  intro p hp hpn
  exact hn (hpn ▸ hd.2 p hp)

theorem is_alive_unknown (g : AFDM) (n : String) (hn : n ∉ g.keys) :
    g.is_alive n = Except.error { name := n } := by
  unfold AFDM.is_alive
  cases hf : g.A.find? (fun a => a.name == n) with
  | none => rfl
  | some a =>
    exfalso
    apply hn
    have hbeq := List.find?_some hf
    have hm := List.mem_of_find?_eq_some hf
    unfold AFDM.keys
    rw [← eq_of_beq hbeq]
    exact List.mem_map_of_mem (fun b => b.name) hm

theorem findCandidate_eq_none_iff (g : AFDM) (labels : String → Label) :
    g.findCandidate labels = none ↔ NoCandidate g labels := by
  unfold AFDM.findCandidate NoCandidate
  rw [List.find?_eq_none]
  constructor
  · intro h c hck hc
    exact h c hck (decide_eq_true hc)
  · intro h c hck hdec
    exact h c hck (of_decide_eq_true hdec)

theorem applyStep_und (g : AFDM) (L : String → Label) (x y : String)
    (hy : g.applyStep L x y = Label.und) : L y = Label.und := by
  unfold AFDM.applyStep at hy
  by_cases h1 : y ∈ g.get_attacked x
  · rw [if_pos h1] at hy
    exact absurd hy (by decide)
  · rw [if_neg h1] at hy
    by_cases h2 : y = x
    · rw [if_pos h2] at hy
      exact absurd hy (by decide)
    · rw [if_neg h2] at hy
      exact hy

theorem applyStep_inn (g : AFDM) (L : String → Label) (x y : String)
    (hy : g.applyStep L x y = Label.inn) : y = x ∨ L y = Label.inn := by
  unfold AFDM.applyStep at hy
  by_cases h1 : y ∈ g.get_attacked x
  · rw [if_pos h1] at hy
    exact absurd hy (by decide)
  · rw [if_neg h1] at hy
    by_cases h2 : y = x
    · exact Or.inl h2
    · rw [if_neg h2] at hy
      exact Or.inr hy

theorem applyStep_out (g : AFDM) (L : String → Label) (x y : String)
    (hy : g.applyStep L x y = Label.out) :
    y ∈ g.get_attacked x ∨ L y = Label.out := by
  unfold AFDM.applyStep at hy
  by_cases h1 : y ∈ g.get_attacked x
  · exact Or.inl h1
  · rw [if_neg h1] at hy
    by_cases h2 : y = x
    · rw [if_pos h2] at hy
      exact absurd hy (by decide)
    · rw [if_neg h2] at hy
      exact Or.inr hy

theorem applyStep_attacked (g : AFDM) (L : String → Label) (x z : String)
    (hz : z ∈ g.get_attacked x) : g.applyStep L x z = Label.out := by
  unfold AFDM.applyStep
  rw [if_pos hz]

theorem applyStep_self_ne_und (g : AFDM) (L : String → Label) (x : String) :
    g.applyStep L x x ≠ Label.und := by
  unfold AFDM.applyStep
  by_cases h1 : x ∈ g.get_attacked x
  · rw [if_pos h1]
    decide
  · rw [if_neg h1, if_pos rfl]
    decide

theorem inv_init (g : AFDM) (L0 : String → Label)
    (h0 : ∀ y, L0 y ≠ Label.inn) : RunInv g L0 L0 := by
  refine ⟨fun y hy => hy, fun y hy => hy, ?_, ?_, ?_, fun y hy => Or.inl hy⟩
  · intro x hx
    exact absurd hx (h0 x)
  · intro x hx
    exact absurd hx (h0 x)
  · intro x hx
    exact absurd hx (h0 x)

theorem inv_applyStep (g : AFDM) (hcons : Consistent g) (L0 L : String → Label)
    (x : String) (hx : x ∈ g.keys) (hc : g.isCandidate L x) (hI : RunInv g L0 L) :
    RunInv g L0 (g.applyStep L x) := by
  obtain ⟨mono, und0, inn0, a5, a2, a4⟩ := hI
  obtain ⟨hund, hatt⟩ := hc
  have hxx : x ∉ g.get_attacked x := by
    intro hmem
    have h1 := hatt x ((hcons x x).2 hmem)
    rw [hund] at h1
    exact absurd h1 (by decide)
  have keep_out : ∀ y, L y = Label.out → g.applyStep L x y = Label.out := by
    intro y hy
    unfold AFDM.applyStep
    by_cases h1 : y ∈ g.get_attacked x
    · rw [if_pos h1]
    · rw [if_neg h1]
      by_cases h2 : y = x
      · exfalso
        rw [h2, hund] at hy
        exact absurd hy (by decide)
      · rw [if_neg h2]
        exact hy
  have keep_inn : ∀ u, L u = Label.inn → g.applyStep L x u = Label.inn := by
    intro u hu
    unfold AFDM.applyStep
    have h1 : u ∉ g.get_attacked x := by
      intro hmem
      have h2 := a5 u hu x ((hcons u x).2 hmem)
      rw [hund] at h2
      exact absurd h2 (by decide)
    have h2 : ¬ (u = x) := by
      intro h
      rw [h, hund] at hu
      exact absurd hu (by decide)
    rw [if_neg h1, if_neg h2]
    exact hu
  have new_inn : g.applyStep L x x = Label.inn := by
    unfold AFDM.applyStep
    rw [if_neg hxx, if_pos rfl]
  refine ⟨?_, ?_, ?_, ?_, ?_, ?_⟩
  · intro y hy
    exact keep_out y (mono y hy)
  · intro y hy
    exact und0 y (applyStep_und g L x y hy)
  · intro u hu
    rcases applyStep_inn g L x u hu with rfl | hu'
    · exact ⟨und0 u hund, hx⟩
    · exact inn0 u hu'
  · intro u hu a ha
    rcases applyStep_inn g L x u hu with rfl | hu'
    · exact keep_out a (hatt a ha)
    · exact keep_out a (a5 u hu' a ha)
  · intro u hu z hz
    rcases applyStep_inn g L x u hu with rfl | hu'
    · exact applyStep_attacked g L u z hz
    · exact keep_out z (a2 u hu' z hz)
  · intro y hy
    rcases applyStep_out g L x y hy with h1 | h1
    · exact Or.inr ⟨x, new_inn, h1⟩
    · rcases a4 y h1 with h2 | ⟨u, hu, hyu⟩
      · exact Or.inl h2
      · exact Or.inr ⟨u, keep_inn u hu, hyu⟩

theorem inv_steps (g : AFDM) (hcons : Consistent g) (L0 : String → Label)
    {L L' : String → Label} (hs : Steps g L L') (hI : RunInv g L0 L) :
    RunInv g L0 L' := by
  induction hs with
  | refl L => exact hI
  | step hx hc _ ih => exact ih (inv_applyStep g hcons L0 _ _ hx hc hI)

theorem steps_sound (g : AFDM) (L0 : String → Label) {L L' : String → Label}
    (hsteps : Steps g L L')
    (h1 : ∀ y, L y = Label.inn → GLab g L0 y Label.inn)
    (h2 : ∀ y, L y = Label.out → GLab g L0 y Label.out)
    (h3 : ∀ y, L y = Label.und → L0 y = Label.und) :
    (∀ y, L' y = Label.inn → GLab g L0 y Label.inn) ∧
    (∀ y, L' y = Label.out → GLab g L0 y Label.out) := by
  induction hsteps with
  | refl L => exact ⟨h1, h2⟩
  | @step L M x hx hc hrest ih =>
    have hginn : GLab g L0 x Label.inn :=
      GLab.acc hx (h3 x hc.1) (fun a ha => h2 a (hc.2 a ha))
    apply ih
    · intro y hy
      rcases applyStep_inn g L x y hy with rfl | hy'
      · exact hginn
      · exact h1 y hy'
    · intro y hy
      rcases applyStep_out g L x y hy with hmem | hy'
      · exact GLab.out_att hginn hmem
      · exact h2 y hy'
    · intro y hy
      exact h3 y (applyStep_und g L x y hy)

theorem terminal_complete (g : AFDM) (hcons : Consistent g)
    (L0 L : String → Label) (hI : RunInv g L0 L) (hterm : NoCandidate g L) :
    ∀ y l, GLab g L0 y l → L y = l := by
  intro y l h
  induction h with
  | out_init h0 => exact hI.1 _ h0
  | out_att hin hmem ih => exact hI.2.2.2.2.1 _ ih _ hmem
  | @acc x hk h0 hatt ih =>
    cases hLx : L x with
    | und =>
      exact absurd ⟨hLx, fun a ha => ih a ha⟩ (hterm x hk)
    | out =>
      exfalso
      rcases hI.2.2.2.2.2 x hLx with h0' | ⟨z, hz, hxz⟩
      · rw [h0] at h0'
        exact absurd h0' (by decide)
      · have := ih z ((hcons x z).2 hxz)
        rw [hz] at this
        exact absurd this (by decide)
    | inn => rfl

theorem terminal_unique (g : AFDM) (hcons : Consistent g)
    (L0 : String → Label) (h0 : ∀ y, L0 y ≠ Label.inn)
    (L1 L2 : String → Label)
    (s1 : Steps g L0 L1) (t1 : NoCandidate g L1)
    (s2 : Steps g L0 L2) (t2 : NoCandidate g L2) :
    ∀ y, L1 y = L2 y := by
  have hI0 : RunInv g L0 L0 := inv_init g L0 h0
  have hI1 : RunInv g L0 L1 := inv_steps g hcons L0 s1 hI0
  have hI2 : RunInv g L0 L2 := inv_steps g hcons L0 s2 hI0
  have base1 : ∀ y, L0 y = Label.inn → GLab g L0 y Label.inn := by
    intro y hy
    exact absurd hy (h0 y)
  have base2 : ∀ y, L0 y = Label.out → GLab g L0 y Label.out := by
    intro y hy
    exact GLab.out_init hy
  have base3 : ∀ y, L0 y = Label.und → L0 y = Label.und := fun y hy => hy
  have sound1 := steps_sound g L0 s1 base1 base2 base3
  have sound2 := steps_sound g L0 s2 base1 base2 base3
  have comp1 := terminal_complete g hcons L0 L1 hI1 t1
  have comp2 := terminal_complete g hcons L0 L2 hI2 t2
  intro y
  cases h1 : L1 y with
  | inn => exact (comp2 y Label.inn (sound1.1 y h1)).symm
  | out => exact (comp2 y Label.out (sound1.2 y h1)).symm
  | und =>
    cases h2 : L2 y with
    | inn =>
      have := comp1 y Label.inn (sound2.1 y h2)
      rw [h1] at this
      exact absurd this (by decide)
    | out =>
      have := comp1 y Label.out (sound2.2 y h2)
      rw [h1] at this
      exact absurd this (by decide)
    | und => rfl

theorem steps_groundedLoop (g : AFDM) (n : ℕ) (L : String → Label) :
    Steps g L (g.groundedLoop n L) := by
  induction n generalizing L with
  | zero => exact Steps.refl L
  | succ n ih =>
    unfold AFDM.groundedLoop
    cases hf : g.findCandidate L with
    | none => exact Steps.refl L
    | some x =>
      have hf' : g.keys.find? (fun c => decide (g.isCandidate L c)) = some x := hf
      have hx : x ∈ g.keys := List.mem_of_find?_eq_some hf'
      have hdec0 := List.find?_some hf'
      have hc : g.isCandidate L x := of_decide_eq_true hdec0
      exact Steps.step hx hc (ih (g.applyStep L x))

theorem countP_lt_of_mem (l : List String) (p q : String → Bool) (c : String)
    (hc : c ∈ l) (hp : p c = true) (hq : q c = false)
    (himp : ∀ a, q a = true → p a = true) : l.countP q < l.countP p := by
  induction l with
  | nil => exact absurd hc (List.not_mem_nil c)
  | cons a t ih =>
    rw [List.countP_cons, List.countP_cons]
    have hmono : t.countP q ≤ t.countP p :=
      List.countP_mono_left (fun b _ hb => himp b hb)
    rcases List.mem_cons.mp hc with rfl | hct
    · rw [hp, hq, if_pos rfl, if_neg (by decide)]
      omega
    · have h1 : (if q a = true then 1 else 0) ≤ (if p a = true then 1 else 0) := by
        by_cases hqa : q a = true
        · rw [if_pos hqa, if_pos (himp a hqa)]
        · rw [if_neg hqa]
          omega
      have h2 := ih hct
      omega

theorem undCount_applyStep (g : AFDM) (L : String → Label) (x : String)
    (hx : x ∈ g.keys) (hc : g.isCandidate L x) :
    undCount g (g.applyStep L x) < undCount g L := by
  apply countP_lt_of_mem g.keys _ _ x hx
  · exact decide_eq_true hc.1
  · exact decide_eq_false (applyStep_self_ne_und g L x)
  · intro a ha
    exact decide_eq_true (applyStep_und g L x a (of_decide_eq_true ha))

theorem loop_reaches_terminal (g : AFDM) :
    ∀ (n : ℕ) (L : String → Label), undCount g L ≤ n →
      NoCandidate g (g.groundedLoop n L) := by
  intro n
  induction n with
  | zero =>
    intro L hL c hck hc
    have hpos : 0 < undCount g L := by
      rw [undCount, List.countP_pos_iff]
      exact ⟨c, hck, decide_eq_true hc.1⟩
    omega
  | succ n ih =>
    intro L hL
    unfold AFDM.groundedLoop
    cases hf : g.findCandidate L with
    | none => exact (findCandidate_eq_none_iff g L).mp hf
    | some x =>
      have hf' : g.keys.find? (fun c => decide (g.isCandidate L c)) = some x := hf
      have hx : x ∈ g.keys := List.mem_of_find?_eq_some hf'
      have hdec0 := List.find?_some hf'
      have hc : g.isCandidate L x := of_decide_eq_true hdec0
      have hdec := undCount_applyStep g L x hx hc
      exact ih (g.applyStep L x) (by omega)

theorem undCount_le_length (g : AFDM) (L : String → Label) :
    undCount g L ≤ g.keys.length :=
  List.countP_le_length _

theorem compute_terminal (g : AFDM) :
    NoCandidate g (g.groundedLoop g.keys.length g.initLabels) :=
  loop_reaches_terminal g g.keys.length g.initLabels (undCount_le_length g _)

theorem initLabels_ne_inn (g : AFDM) : ∀ y, g.initLabels y ≠ Label.inn := by
  intro y
  unfold AFDM.initLabels
  cases g.A.find? (fun a => a.name == y) with
  | none =>
    show Label.out ≠ Label.inn
    decide
  | some a =>
    show (if a.alive = true then Label.und else Label.out) ≠ Label.inn
    by_cases ha : a.alive
    · rw [if_pos ha]
      decide
    · rw [if_neg ha]
      decide

/-- Membership in the computed grounded extension is exactly an in label in
the final labelling of the deterministic run, for keys of the framework. -/
theorem mem_compute_grounded (g : AFDM) (n : String) :
    n ∈ g.compute_grounded_extension ↔
      n ∈ g.keys ∧ g.groundedLoop g.keys.length g.initLabels n = Label.inn := by
  unfold AFDM.compute_grounded_extension
  rw [List.mem_filter]
  constructor
  · rintro ⟨h1, h2⟩
    exact ⟨h1, of_decide_eq_true h2⟩
  · rintro ⟨h1, h2⟩
    exact ⟨h1, decide_eq_true h2⟩

theorem conflictInv_applyStep (g : AFDM) (L : String → Label) (x : String)
    (hc : g.isCandidate L x) (h : ConflictInv g L) :
    ConflictInv g (g.applyStep L x) := by
  intro u hu z hz
  have keep_out : ∀ y, L y = Label.out → g.applyStep L x y = Label.out := by
    intro y hy
    unfold AFDM.applyStep
    by_cases h1 : y ∈ g.get_attacked x
    · rw [if_pos h1]
    · rw [if_neg h1]
      by_cases h2 : y = x
      · exfalso
        rw [h2, hc.1] at hy
        exact absurd hy (by decide)
      · rw [if_neg h2]
        exact hy
  rcases applyStep_inn g L x u hu with rfl | hu'
  · exact applyStep_attacked g L u z hz
  · exact keep_out z (h u hu' z hz)

theorem conflictInv_steps (g : AFDM) {L L' : String → Label}
    (hs : Steps g L L') (h : ConflictInv g L) : ConflictInv g L' := by
  induction hs with
  | refl L => exact h
  | step _ hc _ ih => exact ih (conflictInv_applyStep g _ _ hc h)

theorem conflictInv_init (g : AFDM) : ConflictInv g g.initLabels := by
  intro x hx
  exact absurd hx (initLabels_ne_inn g x)

theorem add_attack_error_unchanged (g : AFDM) (x y : String)
    (h : (g.add_attack_relation x y).2.isSome = true) :
    (g.add_attack_relation x y).1 = g := by
  rcases add_attack_relation_cases g x y with ⟨heq, _⟩ | ⟨_, _, _, _, _, hnone⟩
  · exact heq
  · rw [hnone] at h
    exact absurd h (by decide)

theorem alive_supporting_le (g : AFDM) (d : String) :
    (g.arguments_supporting d false).length ≤
      (g.arguments_supporting d true).length := by
  unfold AFDM.arguments_supporting
  rw [← List.countP_eq_length_filter, ← List.countP_eq_length_filter]
  apply List.countP_mono_left
  intro a _ ha
  rw [Bool.and_eq_true] at ha
  rw [Bool.and_eq_true]
  exact ⟨ha.1, by simp⟩

theorem alive_countering_le (g : AFDM) (d : String) :
    (g.arguments_countering d false).length ≤
      (g.arguments_countering d true).length := by
  unfold AFDM.arguments_countering
  rw [← List.countP_eq_length_filter, ← List.countP_eq_length_filter]
  apply List.countP_mono_left
  intro a _ ha
  rw [Bool.and_eq_true] at ha
  rw [Bool.and_eq_true]
  exact ⟨ha.1, by simp⟩

theorem scenA_reachable : Reachable scenA :=
  Reachable.add_att "b" "c" (Reachable.add_att "a" "b"
    (Reachable.add_arg (Argument.default "c") (Reachable.add_arg (Argument.default "b")
      (Reachable.add_arg (Argument.default "a") Reachable.empty))))
theorem j_simple_bounds (g : AFDM) (d : String) :
    0 ≤ j_simple g d ∧ j_simple g d ≤ 1 := by
  simp only [j_simple]
  set p := (g.arguments_supporting d false).length with hp
  set c := (g.arguments_countering d false).length with hc
  by_cases h : p + c = 0
  · rw [if_pos h]
    norm_num
  · rw [if_neg h]
    have hpos : (0 : ℚ) < (p : ℚ) + (c : ℚ) := by
      have h1 : 0 < p + c := Nat.pos_of_ne_zero h
      exact_mod_cast h1
    constructor
    · exact div_nonneg (Nat.cast_nonneg p) (le_of_lt hpos)
    · rw [div_le_one hpos]
      have h2 : (0 : ℚ) ≤ (c : ℚ) := Nat.cast_nonneg c
      linarith

theorem j_grad_bounds (g : AFDM) (d : String) :
    0 ≤ j_grad g d ∧ j_grad g d ≤ 1 := by
  simp only [j_grad]
  set tp := (g.arguments_supporting d true).length with htp
  set tc := (g.arguments_countering d true).length with htc
  by_cases h : tp = 0 ∨ tc = 0
  · rw [if_pos h]
    norm_num
  · rw [if_neg h]
    push_neg at h
    obtain ⟨htp0, htc0⟩ := h
    set p := (g.arguments_supporting d false).length with hpd
    set c := (g.arguments_countering d false).length with hcd
    have hple : p ≤ tp := alive_supporting_le g d
    have hcle : c ≤ tc := alive_countering_le g d
    have htpq : (0 : ℚ) < (tp : ℚ) := by
      exact_mod_cast Nat.pos_of_ne_zero htp0
    have htcq : (0 : ℚ) < (tc : ℚ) := by
      exact_mod_cast Nat.pos_of_ne_zero htc0
    have h1 : (0 : ℚ) ≤ 1 / 2 / (tp : ℚ) * (p : ℚ) := by positivity
    have h2 : 1 / 2 / (tp : ℚ) * (p : ℚ) ≤ 1 / 2 := by
      have hfr : (p : ℚ) / (tp : ℚ) ≤ 1 := by
        rw [div_le_one htpq]
        exact_mod_cast hple
      have heq : 1 / 2 / (tp : ℚ) * (p : ℚ) = 1 / 2 * ((p : ℚ) / (tp : ℚ)) := by
        ring
      rw [heq]
      nlinarith
    have h3 : (0 : ℚ) ≤ 1 / 2 / (tc : ℚ) * (c : ℚ) := by positivity
    have h4 : 1 / 2 / (tc : ℚ) * (c : ℚ) ≤ 1 / 2 := by
      have hfr : (c : ℚ) / (tc : ℚ) ≤ 1 := by
        rw [div_le_one htcq]
        exact_mod_cast hcle
      have heq : 1 / 2 / (tc : ℚ) * (c : ℚ) = 1 / 2 * ((c : ℚ) / (tc : ℚ)) := by
        ring
      rw [heq]
      nlinarith
    constructor <;> linarith

theorem j_offset_bounds (g : AFDM) (d : String) :
    0 ≤ j_offset g d ∧ j_offset g d ≤ 1 := by
  simp only [j_offset]
  constructor
  · apply le_min
    · norm_num
    · positivity
  · exact min_le_left _ _

theorem j_diff_bounds (g : AFDM) (d : String) :
    -1 ≤ j_diff g d ∧ j_diff g d ≤ 1 := by
  simp only [j_diff]
  set ap := (g.arguments_supporting d false).length with hap
  set tp := (g.arguments_supporting d true).length with htp
  set ac := (g.arguments_countering d false).length with hac
  set tc := (g.arguments_countering d true).length with htc
  have hple : ap ≤ tp := alive_supporting_le g d
  have hcle : ac ≤ tc := alive_countering_le g d
  have hpros : (0 : ℚ) ≤ (if tp ≠ 0 then (ap : ℚ) / (tp : ℚ) else 0) ∧
      (if tp ≠ 0 then (ap : ℚ) / (tp : ℚ) else 0) ≤ 1 := by
    by_cases h : tp ≠ 0
    · rw [if_pos h]
      have hq : (0 : ℚ) < (tp : ℚ) := by
        exact_mod_cast Nat.pos_of_ne_zero h
      constructor
      · exact div_nonneg (Nat.cast_nonneg ap) (le_of_lt hq)
      · rw [div_le_one hq]
        exact_mod_cast hple
    · rw [if_neg h]
      norm_num
  have hcons : (0 : ℚ) ≤ (if tc ≠ 0 then (ac : ℚ) / (tc : ℚ) else 0) ∧
      (if tc ≠ 0 then (ac : ℚ) / (tc : ℚ) else 0) ≤ 1 := by
    by_cases h : tc ≠ 0
    · rw [if_pos h]
      have hq : (0 : ℚ) < (tc : ℚ) := by
        exact_mod_cast Nat.pos_of_ne_zero h
      constructor
      · exact div_nonneg (Nat.cast_nonneg ac) (le_of_lt hq)
      · rw [div_le_one hq]
        exact_mod_cast hcle
    · rw [if_neg h]
      norm_num
  constructor <;> linarith [hpros.1, hpros.2, hcons.1, hcons.2]

theorem j_simple_char_aux (g : AFDM) (d : String) :
    (j_simple g d = 1 / 2 ↔
      (g.arguments_supporting d false).length =
        (g.arguments_countering d false).length) := by
  simp only [j_simple]
  set p := (g.arguments_supporting d false).length with hp
  set c := (g.arguments_countering d false).length with hc
  by_cases h : p + c = 0
  · rw [if_pos h]
    have hp0 : p = 0 := by omega
    have hc0 : c = 0 := by omega
    rw [hp0, hc0]
    simp
  · rw [if_neg h]
    have hpos : (0 : ℚ) < (p : ℚ) + (c : ℚ) := by
      have h1 : 0 < p + c := Nat.pos_of_ne_zero h
      exact_mod_cast h1
    rw [div_eq_iff (ne_of_gt hpos)]
    constructor
    · intro heq
      have h2 : (p : ℚ) = (c : ℚ) := by linarith
      exact_mod_cast h2
    · intro heq
      have h2 : (p : ℚ) = (c : ℚ) := by exact_mod_cast heq
      linarith

theorem q_literal_values : q14 = 1 / 4 ∧ q12 = 1 / 2 ∧ q34 = 3 / 4 ∧ q33 = 33 / 100 := by
  refine ⟨?_, ?_, ?_, ?_⟩
  · rw [q14, Rat.mk'_eq_divInt, Rat.divInt_eq_div]
    norm_num
  · rw [q12, Rat.mk'_eq_divInt, Rat.divInt_eq_div]
    norm_num
  · rw [q34, Rat.mk'_eq_divInt, Rat.divInt_eq_div]
    norm_num
  · rw [q33, Rat.mk'_eq_divInt, Rat.divInt_eq_div]
    norm_num

/-- C1: for every framework and every attack (a, b) recorded in the attacked
index, if a is in the set returned by compute_grounded_extension then b is
not in that set: the grounded extension is conflict-free with respect to
the recorded attack relation. -/
theorem grounded_conflict_free (g : AFDM) (a b : String)
    (hab : b ∈ g.get_attacked a) (ha : a ∈ g.compute_grounded_extension) :
    b ∉ g.compute_grounded_extension := by
  intro hb
  have hsteps := steps_groundedLoop g g.keys.length g.initLabels
  have hC : ConflictInv g (g.groundedLoop g.keys.length g.initLabels) :=
    conflictInv_steps g hsteps (conflictInv_init g)
  rw [mem_compute_grounded] at ha hb
  have hout := hC a ha.2 b hab
  rw [hb.2] at hout
  exact absurd hout (by decide)

/-- Witness for C1 on the three-argument chain of the test suite: the attack
from a to b is recorded, a is in the grounded extension, and b is not. -/
theorem grounded_conflict_free_witness :
    "b" ∈ scenA.get_attacked "a" ∧ "a" ∈ scenA.compute_grounded_extension ∧
    "b" ∉ scenA.compute_grounded_extension :=
  ⟨by decide, by decide,
   grounded_conflict_free scenA "a" "b" (by decide) (by decide)⟩

/-- C2: for every framework with consistent indexes, running
compute_grounded_extension twice without intervening mutation returns the
identical result (the embedding of the computation is pure: the only state
the source touches is the unobservable defaultdict fill-in), and the result
does not depend on the candidate selection order: every maximal run of the
labelling loop from the initial labels, whatever candidate it picks at each
step, ends in the same labelling as the deterministic first-candidate run,
and its in-labelled keys are exactly the computed grounded extension. -/
theorem grounded_order_independent (g : AFDM) (hcons : Consistent g)
    (L : String → Label) (hrun : Steps g g.initLabels L)
    (hterm : NoCandidate g L) :
    g.compute_grounded_extension = g.compute_grounded_extension ∧
    (∀ y, L y = g.groundedLoop g.keys.length g.initLabels y) ∧
    g.keys.filter (fun k => decide (L k = Label.inn)) =
      g.compute_grounded_extension := by
  have hdrun : Steps g g.initLabels (g.groundedLoop g.keys.length g.initLabels) :=
    steps_groundedLoop g g.keys.length g.initLabels
  have hdterm : NoCandidate g (g.groundedLoop g.keys.length g.initLabels) :=
    compute_terminal g
  have huniq := terminal_unique g hcons g.initLabels (initLabels_ne_inn g)
    L (g.groundedLoop g.keys.length g.initLabels) hrun hterm hdrun hdterm
  refine ⟨rfl, huniq, ?_⟩
  unfold AFDM.compute_grounded_extension
  apply List.filter_congr
  intro k _
  rw [huniq k]

/-- Witness for C2 on the three-argument chain: the deterministic run is
itself a maximal run, and the theorem applies to it. -/
theorem grounded_order_independent_witness :
    Consistent scenA ∧
    (scenA.compute_grounded_extension = scenA.compute_grounded_extension ∧
     (∀ y, scenA.groundedLoop scenA.keys.length scenA.initLabels y =
        scenA.groundedLoop scenA.keys.length scenA.initLabels y) ∧
     scenA.keys.filter (fun k =>
        decide (scenA.groundedLoop scenA.keys.length scenA.initLabels k =
          Label.inn)) = scenA.compute_grounded_extension) :=
  ⟨consistent_of_reachable scenA scenA_reachable,
   grounded_order_independent scenA
     (consistent_of_reachable scenA scenA_reachable)
     (scenA.groundedLoop scenA.keys.length scenA.initLabels)
     (steps_groundedLoop scenA scenA.keys.length scenA.initLabels)
     (compute_terminal scenA)⟩

/-- C3: on the six-argument graph of the test suite judged at equity 0.33,
after specialization the three always-true test arguments and equity_0.25
are alive and the two higher equity thresholds are not; after grounding the
grounded extension is exactly equity_0.25, test_0.50, test_0.75; one alive
argument supports moral, three support it ignoring aliveness, and j_diff
returns one third. -/
theorem scenarioB_judgment :
    scenBFiltered.aliveOf "equity_0.25" = some true ∧
    scenBFiltered.aliveOf "equity_0.50" = some false ∧
    scenBFiltered.aliveOf "equity_0.75" = some false ∧
    scenBFiltered.aliveOf "test_0.25" = some true ∧
    scenBFiltered.aliveOf "test_0.50" = some true ∧
    scenBFiltered.aliveOf "test_0.75" = some true ∧
    scenBGrounded.grounded = ["equity_0.25", "test_0.50", "test_0.75"] ∧
    (scenBGrounded.arguments_supporting "moral" false).length = 1 ∧
    (scenBGrounded.arguments_supporting "moral" true).length = 3 ∧
    j_diff scenBGrounded "moral" = 1 / 3 := by
  refine ⟨by decide, by decide, by decide, by decide, by decide, by decide,
    by decide, by decide, by decide, ?_⟩
  have h1 : (scenBGrounded.arguments_supporting "moral" false).length = 1 := by
    decide
  have h2 : (scenBGrounded.arguments_supporting "moral" true).length = 3 := by
    decide
  have h3 : (scenBGrounded.arguments_countering "moral" false).length = 0 := by
    decide
  have h4 : (scenBGrounded.arguments_countering "moral" true).length = 0 := by
    decide
  simp only [j_diff, h1, h2, h3, h4]
  norm_num

/-- C4 counterexample: on a graph with three alive supporting arguments and
no countering ones, the first j_ratio call (running maximum still zero)
returns 3, which is outside the unit interval, refuting the claim that
j_ratio always returns values in it. -/
theorem j_ratio_exceeds_unit_interval :
    ( j_ratio gThreePros "moral" 0).1 = 3 ∧
    ¬ (( j_ratio gThreePros "moral" 0).1 ≤ 1) := by
  have h1 : (gThreePros.arguments_supporting "moral" false).length = 3 := by
    decide
  have h2 : (gThreePros.arguments_countering "moral" false).length = 0 := by
    decide
  have h3 : ( j_ratio gThreePros "moral" 0).1 = 3 := by
    simp only [ j_ratio, h1, h2]
    norm_num
  refine ⟨h3, ?_⟩
  rw [h3]
  norm_num

/-- C4 as amended: for every framework and decision, j_simple, j_grad and
j_offset return values in the unit interval and j_diff returns a value
between minus one and one; j_ratio is excluded because its output can
exceed one, as the counterexample shows. -/
theorem judgment_transforms_bounded (g : AFDM) (d : String) :
    (0 ≤ j_simple g d ∧ j_simple g d ≤ 1) ∧
    (0 ≤ j_grad g d ∧ j_grad g d ≤ 1) ∧
    (0 ≤ j_offset g d ∧ j_offset g d ≤ 1) ∧
    (-1 ≤ j_diff g d ∧ j_diff g d ≤ 1) :=
  ⟨j_simple_bounds g d, j_grad_bounds g d, j_offset_bounds g d,
   j_diff_bounds g d⟩

/-- C5 counterexample: with the process-wide running maximum of the source
threaded through the calls in program order, the reward sequence of the
one-argument agent is the singleton one third when the three-argument agent
judged first, but the singleton one when it judges alone: interleaving the
other agent changed its rewards. -/
theorem j_ratio_interleaving_changes_reward :
    runShared [(agentThree, sitZero, "moral"), (agentOne, sitZero, "moral")] 0 =
      [3, 1 / 3] ∧
    runShared [(agentOne, sitZero, "moral")] 0 = [1] ∧ ((1 : ℚ) / 3 ≠ 1) := by
  have h1 : ((agentThree.filter_afdm
      sitZero).update_alive_in_grounded_extension.arguments_supporting
      "moral" false).length = 3 := by decide
  have h2 : ((agentThree.filter_afdm
      sitZero).update_alive_in_grounded_extension.arguments_countering
      "moral" false).length = 0 := by decide
  have h3 : ((agentOne.filter_afdm
      sitZero).update_alive_in_grounded_extension.arguments_supporting
      "moral" false).length = 1 := by decide
  have h4 : ((agentOne.filter_afdm
      sitZero).update_alive_in_grounded_extension.arguments_countering
      "moral" false).length = 0 := by decide
  refine ⟨?_, ?_, by norm_num⟩
  · simp only [runShared, JudgingAgent.judge_ratio, j_ratio, h1, h2, h3, h4]
    norm_num
  · simp only [runShared, JudgingAgent.judge_ratio, j_ratio, h3, h4]
    norm_num

/-- C5 as amended: the running maximum of j_ratio is a single cell shared
by all callers in program order (the source keeps it as an attribute of the
module-level function object); its update law takes the maximum of the
current pros plus cons with the previous value, and a judgment by one agent
can change the reward a later judgment by another agent returns, as the
concrete interleaving shows. -/
theorem j_ratio_shared_running_max :
    (∀ (g : AFDM) (d : String) (best : ℕ),
      ( j_ratio g d best).2 =
        max ((g.arguments_supporting d false).length +
          (g.arguments_countering d false).length) best) ∧
    ( agentOne.judge_ratio sitZero "moral"
        (( agentThree.judge_ratio sitZero "moral" 0).2)).1 ≠
      ( agentOne.judge_ratio sitZero "moral" 0).1 := by
  constructor
  · intro g d best
    rfl
  · have hst : ( agentThree.judge_ratio sitZero "moral" 0).2 = 3 := by decide
    have h3 : ((agentOne.filter_afdm
        sitZero).update_alive_in_grounded_extension.arguments_supporting
        "moral" false).length = 1 := by decide
    have h4 : ((agentOne.filter_afdm
        sitZero).update_alive_in_grounded_extension.arguments_countering
        "moral" false).length = 0 := by decide
    rw [hst]
    simp only [JudgingAgent.judge_ratio, j_ratio, h3, h4]
    norm_num

/-- C6 counterexample: on the empty framework and the unknown name z,
is_alive raises the not-found error, but get_attackers and get_attacked
return normally with the empty list instead of raising, because the source
reads the indexes through a defaultdict; the claim that all three lookups
raise is therefore false. -/
theorem lookup_unknown_no_error_on_get :
    AFDM.empty.is_alive "z" = Except.error { name := "z" } ∧
    AFDM.empty.get_attackers "z" = [] ∧ AFDM.empty.get_attacked "z" = [] :=
  ⟨rfl, rfl, rfl⟩

/-- C6 as amended: for every framework built through the public operations
and every name absent from its argument map, is_alive raises the not-found
error carrying the requested name and the error propagates (the embedding
returns it to the caller), while get_attackers and get_attacked do not
raise and return the empty list. -/
theorem lookup_unknown_behavior (g : AFDM) (hr : Reachable g) (n : String)
    (hn : n ∉ g.keys) :
    g.is_alive n = Except.error { name := n } ∧
    g.get_attackers n = [] ∧ g.get_attacked n = [] :=
  ⟨is_alive_unknown g n hn,
   get_attackers_unknown g n (mapsdom_of_reachable g hr) hn,
   get_attacked_unknown g n (mapsdom_of_reachable g hr) hn⟩

/-- Witness for C6 on the three-argument chain and the unknown name zz. -/
theorem lookup_unknown_behavior_witness :
    Reachable scenA ∧ "zz" ∉ scenA.keys ∧
    (scenA.is_alive "zz" = Except.error { name := "zz" } ∧
     scenA.get_attackers "zz" = [] ∧ scenA.get_attacked "zz" = []) :=
  ⟨scenA_reachable, by decide,
   lookup_unknown_behavior scenA scenA_reachable "zz" (by decide)⟩

/-- C7 counterexample: on a graph with one alive supporter and one alive
counterer of moral, j_simple returns one half although pros plus cons is
two, refuting the claim that one half is returned exactly when pros plus
cons is zero. -/
theorem j_simple_half_without_zero_total :
    j_simple gOneOne "moral" = 1 / 2 ∧
    (gOneOne.arguments_supporting "moral" false).length +
      (gOneOne.arguments_countering "moral" false).length ≠ 0 := by
  have h1 : (gOneOne.arguments_supporting "moral" false).length = 1 := by decide
  have h2 : (gOneOne.arguments_countering "moral" false).length = 1 := by decide
  constructor
  · simp only [j_simple, h1, h2]
    norm_num
  · rw [h1, h2]
    decide

/-- C7 as amended: for every framework and decision, j_simple returns the
ratio of alive pros over alive pros plus alive cons when that sum is
nonzero and one half when it is zero, its value always lies in the unit
interval, and it returns one half exactly when the alive pros and alive
cons counts are equal (which includes, but is not limited to, the case
where both are zero). -/
theorem j_simple_characterization (g : AFDM) (d : String) :
    ((g.arguments_supporting d false).length +
        (g.arguments_countering d false).length = 0 → j_simple g d = 1 / 2) ∧
    ((g.arguments_supporting d false).length +
        (g.arguments_countering d false).length ≠ 0 →
      j_simple g d = ((g.arguments_supporting d false).length : ℚ) /
        (((g.arguments_supporting d false).length : ℚ) +
          ((g.arguments_countering d false).length : ℚ))) ∧
    (0 ≤ j_simple g d ∧ j_simple g d ≤ 1) ∧
    (j_simple g d = 1 / 2 ↔
      (g.arguments_supporting d false).length =
        (g.arguments_countering d false).length) := by
  refine ⟨?_, ?_, j_simple_bounds g d, j_simple_char_aux g d⟩
  · intro h
    simp only [j_simple]
    rw [if_pos h]
  · intro h
    simp only [j_simple]
    rw [if_neg h]

/-- Witness for C7 at the one-supporter one-counterer graph and the moral
decision. -/
theorem j_simple_characterization_witness :
    ((gOneOne.arguments_supporting "moral" false).length +
        (gOneOne.arguments_countering "moral" false).length = 0 →
      j_simple gOneOne "moral" = 1 / 2) ∧
    ((gOneOne.arguments_supporting "moral" false).length +
        (gOneOne.arguments_countering "moral" false).length ≠ 0 →
      j_simple gOneOne "moral" =
        ((gOneOne.arguments_supporting "moral" false).length : ℚ) /
          (((gOneOne.arguments_supporting "moral" false).length : ℚ) +
            ((gOneOne.arguments_countering "moral" false).length : ℚ))) ∧
    (0 ≤ j_simple gOneOne "moral" ∧ j_simple gOneOne "moral" ≤ 1) ∧
    (j_simple gOneOne "moral" = 1 / 2 ↔
      (gOneOne.arguments_supporting "moral" false).length =
        (gOneOne.arguments_countering "moral" false).length) :=
  j_simple_characterization gOneOne "moral"

/-- C8: for every framework and endpoints given as arguments or names,
add_attack_relation raises the not-found error exactly when at least one
resolved endpoint name is unknown (whichever side it is), and succeeds
without raising when both are known. -/
theorem add_attack_unknown_error_iff (g : AFDM)
    (attacker attacked : Argument ⊕ String) :
    ((g.add_attack_relation_u attacker attacked).2.isSome = true ↔
      (resolveName attacker ∉ g.keys ∨ resolveName attacked ∉ g.keys)) ∧
    (resolveName attacker ∈ g.keys → resolveName attacked ∈ g.keys →
      (g.add_attack_relation_u attacker attacked).2 = none) := by
  unfold AFDM.add_attack_relation_u AFDM.add_attack_relation
  by_cases h1 : resolveName attacker ∈ g.keys
  · by_cases h2 : resolveName attacked ∈ g.keys
    · constructor
      · simp [h1, h2]
      · intro _ _
        simp [h1, h2]
    · constructor
      · simp [h1, h2]
      · intro _ hc
        exact absurd hc h2
  · constructor
    · simp [h1]
    · intro hc _
      exact absurd hc h1

/-- Witness for C8 on the three-argument chain, attacking from the known
name a to the unknown name zz. -/
theorem add_attack_unknown_error_iff_witness :
    ((scenA.add_attack_relation_u (Sum.inr "a") (Sum.inr "zz")).2.isSome = true ↔
      (resolveName (Sum.inr "a") ∉ scenA.keys ∨
        resolveName (Sum.inr "zz") ∉ scenA.keys)) ∧
    (resolveName (Sum.inr "a") ∈ scenA.keys →
      resolveName (Sum.inr "zz") ∈ scenA.keys →
      (scenA.add_attack_relation_u (Sum.inr "a") (Sum.inr "zz")).2 = none) :=
  add_attack_unknown_error_iff scenA (Sum.inr "a") (Sum.inr "zz")

/-- C9: for every framework with consistent indexes, the labelling loop of
compute_grounded_extension reaches a labelling with no remaining candidate
within at most as many iterations as there are arguments; each iteration
strictly decreases the number of undecided arguments, labels its candidate
(a previously undecided argument) in, and labels no other previously
undecided argument in. -/
theorem grounded_terminates_bounded (g : AFDM) (hcons : Consistent g) :
    g.findCandidate (g.groundedLoop g.keys.length g.initLabels) = none ∧
    ∀ (L : String → Label) (x : String), x ∈ g.keys → g.isCandidate L x →
      undCount g (g.applyStep L x) < undCount g L ∧
      g.applyStep L x x = Label.inn ∧
      ∀ y, L y = Label.und → g.applyStep L x y = Label.inn → y = x := by
  constructor
  · exact (findCandidate_eq_none_iff g _).mpr (compute_terminal g)
  · intro L x hx hc
    refine ⟨undCount_applyStep g L x hx hc, ?_, ?_⟩
    · have hxx : x ∉ g.get_attacked x := by
        intro hmem
        have h1 := hc.2 x ((hcons x x).2 hmem)
        rw [hc.1] at h1
        exact absurd h1 (by decide)
      unfold AFDM.applyStep
      rw [if_neg hxx, if_pos rfl]
    · intro y hy hinn
      rcases applyStep_inn g L x y hinn with h | h
      · exact h
      · rw [hy] at h
        exact absurd h (by decide)

/-- Witness for C9 on the three-argument chain, whose indexes are
consistent because it is built through the public operations. -/
theorem grounded_terminates_bounded_witness :
    Consistent scenA ∧
    (scenA.findCandidate
        (scenA.groundedLoop scenA.keys.length scenA.initLabels) = none ∧
     ∀ (L : String → Label) (x : String), x ∈ scenA.keys →
        scenA.isCandidate L x →
        undCount scenA (scenA.applyStep L x) < undCount scenA L ∧
        scenA.applyStep L x x = Label.inn ∧
        ∀ y, L y = Label.und → scenA.applyStep L x y = Label.inn → y = x) :=
  ⟨consistent_of_reachable scenA scenA_reachable,
   grounded_terminates_bounded scenA
     (consistent_of_reachable scenA scenA_reachable)⟩

/-- C10: every framework reachable from a fresh graph through any sequence
of add_argument and add_attack_relation calls has mutually consistent
derived indexes (y attacks x per the attackers index exactly when x is
attacked by y per the attacked index), and an add_attack_relation call that
raises the not-found error leaves both indexes unchanged. -/
theorem indexes_consistent (g : AFDM) (h : Reachable g) :
    Consistent g ∧
    ∀ a b : String, (g.add_attack_relation a b).2.isSome = true →
      (g.add_attack_relation a b).1.attackers = g.attackers ∧
      (g.add_attack_relation a b).1.attacked = g.attacked := by
  refine ⟨consistent_of_reachable g h, ?_⟩
  intro a b herr
  rw [add_attack_error_unchanged g a b herr]
  exact ⟨rfl, rfl⟩

/-- Witness for C10 on the three-argument chain built through the public
operations. -/
theorem indexes_consistent_witness :
    Reachable scenA ∧
    (Consistent scenA ∧
     ∀ a b : String, (scenA.add_attack_relation a b).2.isSome = true →
       (scenA.add_attack_relation a b).1.attackers = scenA.attackers ∧
       (scenA.add_attack_relation a b).1.attacked = scenA.attacked) :=
  ⟨scenA_reachable, indexes_consistent scenA scenA_reachable⟩
